import Mathlib

/-!
# A shallow embedding of discorb's `Bot` (src/discorb.ts)

Strings are modelled as `List Char`.  JavaScript's `\s` character class is
modelled on the ASCII range (space, tab, newline, carriage return, vertical
tab, form feed); the repository only ever exercises these characters.
Handlers, dynamic help callables and state listeners are opaque callables:
they are represented by numeric identifiers, and their behaviour
(normal return versus thrown error) is supplied to the dispatcher as an
oracle function.  A thrown JavaScript error is modelled by `Except.error` /
an `Option Str` error outcome; a pure function that returns `Except.error`
leaves every data structure it was given untouched, which models the fact
that `throw` performs no mutation.
-/

namespace Discorb

abbrev Str := List Char

/-- JS `\s` on the ASCII range. -/
def isWs (c : Char) : Bool :=
  c == ' ' || c == '\t' || c == '\n' || c == '\r' || c == '\x0b' || c == '\x0c'

/-- Left trim, as in `String.prototype.trimStart`. -/
def ltrim (s : Str) : Str := s.dropWhile isWs

/-- Right trim, as in `String.prototype.trimEnd`. -/
def rtrim (s : Str) : Str := (s.reverse.dropWhile isWs).reverse

/-- models `String.prototype.trim`. -/
def jsTrim (s : Str) : Str := rtrim (ltrim s)

/-- models `replace(/\s+/g, ' ')`: the flag records whether the previous
character was part of a whitespace run already replaced by `' '`. -/
def collapseFlag : Bool → Str → Str
  | _, [] => []
  | prevWs, c :: cs =>
    if isWs c then
      if prevWs then collapseFlag true cs else ' ' :: collapseFlag true cs
    else c :: collapseFlag false cs

def collapseWs (s : Str) : Str := collapseFlag false s

/-- models `String.prototype.split(' ')` (splitting on the single space
character; `''.split(' ')` is `['']`). -/
def splitAux : Str → Str → List Str
  | acc, [] => [acc.reverse]
  | acc, c :: cs => if c == ' ' then acc.reverse :: splitAux [] cs else splitAux (c :: acc) cs

def splitOnSpace (s : Str) : List Str := splitAux [] s

/-- models `Bot.parse` (src/discorb.ts:251-260):
```
if (message.startsWith(this.prefix)) {
  const splits = message.trim().replace(/\s+/g, ' ').split(' ')
  if (splits.length > 0 && splits[0] !== this.prefix) {
    splits[0] = splits[0].slice(this.prefix.length)
    return splits
  }
}
return []
``` -/
def parse (pfx msg : Str) : List Str :=
  if pfx.isPrefixOf msg then
    match splitOnSpace (collapseWs (jsTrim msg)) with
    | [] => []
    | s0 :: rest => if s0 = pfx then [] else s0.drop pfx.length :: rest
  else []

/-- A command help descriptor: either a static payload or an opaque callable
(identified by a number, interpreted by the dispatcher's `runHelp` oracle). -/
inductive Help where
  | static (payload : Str)
  | dyn (id : Nat)
  deriving Repr

/-- A registered command: `{ action, sub, help? }`.  The action callable is
opaque and represented by its identifier. -/
inductive Command where
  | mk (action : Nat) (help : Option Help) (sub : List (Str × Command))

def Command.action : Command → Nat
  | .mk a _ _ => a

def Command.help : Command → Option Help
  | .mk _ h _ => h

def Command.sub : Command → List (Str × Command)
  | .mk _ _ s => s

/-- JS object property read `obj[k]` on a string-keyed record. -/
def alGet (k : Str) : List (Str × α) → Option α
  | [] => none
  | (k', v) :: r => if k' = k then some v else alGet k r

/-- JS object property write `obj[k] = v`: replaces the value in place if the
key exists, otherwise appends the new key. -/
def alSet (k : Str) (v : α) : List (Str × α) → List (Str × α)
  | [] => [(k, v)]
  | (k', v') :: r => if k' = k then (k, v) :: r else (k', v') :: alSet k v r

/-- `Object.keys`. -/
def alKeys (l : List (Str × α)) : List Str := l.map Prod.fst

/-- One step of both dives:
`current != undefined ? current.sub[command] : this.commands[command]`. -/
def step (root : List (Str × Command)) (cur : Option Command) (s : Str) : Option Command :=
  match cur with
  | some c => alGet s c.sub
  | none => alGet s root

/-- The loop of `Bot.strictDive` (src/discorb.ts:435-449); a `none` result
models the thrown `Error('Unable to follow commands')`. -/
def strictDiveGo (root : List (Str × Command)) : Option Command → List Str → Option Command
  | cur, [] => cur
  | cur, s :: rest =>
    match step root cur s with
    | none => none
    | some c => strictDiveGo root (some c) rest

def strictDive (root : List (Str × Command)) (segs : List Str) : Option Command :=
  strictDiveGo root none segs

/-- The loop of `Bot.weakDive` (src/discorb.ts:456-470): returns
`{ through, command }`. -/
def weakDiveGo (root : List (Str × Command)) : Option Command → List Str → List Str × Option Command
  | cur, [] => ([], cur)
  | cur, s :: rest =>
    match step root cur s with
    | none => ([], cur)
    | some c =>
      let p := weakDiveGo root (some c) rest
      (s :: p.1, p.2)

def weakDive (root : List (Str × Command)) (segs : List Str) : List Str × Option Command :=
  weakDiveGo root none segs

def unableMsg : Str := "Unable to follow commands".toList

/-- The in-place mutation `cmd.command.sub[last] = newCmd` of `Bot.register`,
rendered functionally: the mutated node is the one reached from the root by
following the consumed path `through`. -/
def updateSub (k : Str) (v : Command) : List (Str × Command) → List Str → List (Str × Command)
  | root, [] => alSet k v root
  | root, s :: rest =>
    match alGet s root with
    | none => root
    | some (.mk a h sb) => alSet s (.mk a h (updateSub k v sb rest)) root

/-- models `Bot.register` (src/discorb.ts:283-312).  `sb` is the pre-built
`sub` map a batch descriptor (`Plugin`) may supply (`sub ?? {}`); the
string/action/help overloads pass `none`.  `Except.error` models the thrown
`Error('Unable to follow commands')`; no mutation has happened at that point,
so the caller's tree is unchanged. -/
def register (root : List (Str × Command)) (commandPath : Str) (action : Nat)
    (hlp : Option Help) (sb : Option (List (Str × Command))) :
    Except Str (List (Str × Command)) :=
  let commands := splitOnSpace commandPath
  let wd := weakDive root commands
  let newCmd : Command := .mk action hlp (sb.getD [])
  let lastSeg := commands.getLast?.getD []
  if wd.2.isNone ∧ commands.length = 1 then
    .ok (alSet lastSeg newCmd root)
  else if wd.2.isSome ∧ wd.1.length = commands.length - 1 then
    .ok (updateSub lastSeg newCmd root wd.1)
  else
    .error unableMsg

/-! ## State container -/

/-- Bot state: a shallow JS object with opaque (numbered) values. -/
abbrev StateV := List (Str × Nat)

/-- JS object spread `{ ...previous, ...part }`. -/
def jsMerge (previous part : StateV) : StateV :=
  part.foldl (fun acc kv => alSet kv.1 kv.2 acc) previous

/-- The state-relevant slice of a bot: its state and its `Set` of listeners
(kept in insertion order, deduplicated by identity, i.e. by id). -/
structure BotS where
  state : StateV
  listeners : List Nat

/-- models `Bot.onStateUpdate` / `Set.prototype.add`. -/
def onStateUpdate (b : BotS) (id : Nat) : BotS :=
  { b with listeners := if id ∈ b.listeners then b.listeners else b.listeners ++ [id] }

/-- The `forEach` loop of `Bot.dispatchStateUpdate` (src/discorb.ts:241-245)
run against a listener-behaviour oracle `runL`: returns the calls actually
made (listener id with its `(previousState, nextState)` arguments) and the
first error thrown, if any — a throwing callback aborts `forEach` and the
exception propagates. -/
def dispatchCalls (runL : Nat → StateV → StateV → Option Str) :
    List Nat → StateV → StateV → List (Nat × StateV × StateV) × Option Str
  | [], _, _ => ([], none)
  | id :: rest, p, n =>
    match runL id p n with
    | some e => ([(id, p, n)], some e)
    | none =>
      let r := dispatchCalls runL rest p n
      ((id, p, n) :: r.1, r.2)

/-- models `Bot.setState` (src/discorb.ts:218-225) with listener behaviour
oracle: the state field is assigned the merged value, then the listeners are
notified; the third component is the exception (if any) escaping the call. -/
def setStateRun (b : BotS) (part : StateV) (runL : Nat → StateV → StateV → Option Str) :
    BotS × List (Nat × StateV × StateV) × Option Str :=
  let previous := b.state
  let next := jsMerge previous part
  let d := dispatchCalls runL b.listeners previous next
  ({ b with state := next }, d.1, d.2)

/-- `Bot.setState` with listeners that return normally. -/
def setState (b : BotS) (part : StateV) : BotS × List (Nat × StateV × StateV) :=
  let r := setStateRun b part (fun _ _ _ => none)
  (r.1, r.2.1)

/-! ## Dispatch -/

/-- The `Request` record built once per incoming message. -/
structure Request where
  message : Str
  components : List Str
  commands : List Str
  command : Option Command
  rest : Str
  args : List Str

/-- Reply payloads: plain text, or the global-help embed (its two field
values). -/
inductive Payload where
  | text (s : Str)
  | embedHelp (commandsValue : Str) (helpWithValue : Str)

/-- Observable actions of one dispatch. -/
inductive Effect where
  | invoke (action : Nat) (req : Request)
  | consoleError (e : Str)
  | reply (p : Payload)

def isInvoke : Effect → Bool
  | .invoke _ _ => true
  | _ => false

def isReply : Effect → Bool
  | .reply _ => true
  | _ => false

def strHelp : Str := "help".toList

def strDashHelp : Str := "--help".toList

/-- JS default string comparison (`Array.prototype.sort` with no comparator):
lexicographic on code units. -/
def strLe : Str → Str → Bool
  | [], _ => true
  | _ :: _, [] => false
  | a :: as, b :: bs => if a = b then strLe as bs else decide (a < b)

def insSorted (x : Str) : List Str → List Str
  | [] => [x]
  | y :: ys => if strLe y x then y :: insSorted x ys else x :: y :: ys

/-- A stable sort under `strLe`; agrees with `Array.prototype.sort` on string
arrays. -/
def sortStrs : List Str → List Str
  | [] => []
  | x :: xs => insSorted x (sortStrs xs)

def fmtCmdLine (c : Str) : Str := "- `".toList ++ c ++ "`".toList

/-- The `Commands` field value of the global help embed:
`[...Object.keys(this.commands), 'help'].sort().map(c => ...).join('\n')`. -/
def globalHelpValue (root : List (Str × Command)) : Str :=
  List.intercalate "\n".toList ((sortStrs (alKeys root ++ [strHelp])).map fmtCmdLine)

/-- The `Help with commands` field value of the global help embed. -/
def helpWithValue (pfx : Str) : Str :=
  "You can get help with commands and sub-commands by running `".toList
    ++ pfx ++ "command --help`".toList

/-- Characters that are special in a JS `RegExp` pattern source.  The
`rest` pattern of `Bot.receive` interpolates the raw prefix and the raw
consumed segments, unescaped; only strings free of these characters are
guaranteed to behave as literal sequences inside that pattern. -/
def regexMeta (c : Char) : Bool :=
  c == '\\' || c == '^' || c == '$' || c == '.' || c == '|' || c == '?' ||
  c == '*' || c == '+' || c == '(' || c == ')' || c == '[' || c == ']' ||
  c == '\x7b' || c == '\x7d'

/-- A string that is a plain literal when interpolated into a `RegExp`
pattern source. -/
def regexLit (s : Str) : Bool := s.all (fun c => !regexMeta c)

/-- After the leading prefix, match the rest of the pattern
`through.join('\\s+') + '\\s*'`; segments are whitespace-free tokens, for
which greedy `\s+`/`\s*` matching is literal-munching.  `matchWsSegs` expects
`\s+` before each remaining segment. -/
def matchWsSegs : List Str → Str → Option Str
  | [], r => some (r.dropWhile isWs)
  | s :: more, r =>
    let r1 := r.dropWhile isWs
    if r1.length < r.length ∧ s.isPrefixOf r1 then matchWsSegs more (r1.drop s.length)
    else none

def matchSegsFrom : List Str → Str → Option Str
  | [], r => some (r.dropWhile isWs)
  | s :: more, r => if s.isPrefixOf r then matchWsSegs more (r.drop s.length) else none

/-- models the `rest` computation of `Bot.receive`:
`content.replace(new RegExp('^' + prefix + through.join('\\s+') + '\\s*'), '').trim()`
(an unmatched anchored pattern leaves the string unchanged).  This literal
matcher is faithful only when the prefix and every consumed segment satisfy
`regexLit` (then the interpolated pattern is a valid regex made of literal
atoms, `\s+` joiners and a trailing `\s*`, and greedy matching against
whitespace-free segments is deterministic literal munching); `receive` guards
every use of it with exactly that condition. -/
def restOf (pfx : Str) (through : List Str) (content : Str) : Str :=
  if pfx.isPrefixOf content then
    match matchSegsFrom through (content.drop pfx.length) with
    | some r => jsTrim r
    | none => jsTrim content
  else jsTrim content

/-- The dispatch-relevant slice of a bot. -/
structure BotM where
  pfx : Str
  commands : List (Str × Command)
  invalidCommandError : Str
  errorMessage : Str

structure MessageIn where
  authorBot : Bool
  content : Str

def defaultInvalidCommandError : Str :=
  "I've checked my data banks and could not find record of that command. Maybe you should check yours?".toList

def defaultErrorMessage : Str :=
  "Unexpected error completing your request. Check console for error log.".toList

/-- models `Bot.onError` (src/discorb.ts:333-338): print to the console and
reply with the configured generic error message. -/
def onErrorEffects (b : BotM) (e : Str) : List Effect :=
  [Effect.consoleError e, Effect.reply (.text b.errorMessage)]

/-- models `Bot.onHelp` (src/discorb.ts:394-428).  `runHelp` is the oracle
interpreting a dynamic help callable (its result or its thrown error).  The
final case (`help` absent) mirrors `reply(undefined)`; it is unreachable from
`receive`. -/
def onHelpEffects (b : BotM) (runHelp : Nat → Except Str Str) (request : Request) :
    List Effect :=
  match request.command with
  | none => [Effect.reply (.embedHelp (globalHelpValue b.commands) (helpWithValue b.pfx))]
  | some c =>
    match c.help with
    | some (.dyn h) =>
      match runHelp h with
      | .ok payload => [Effect.reply (.text payload)]
      | .error e => onErrorEffects b e
    | some (.static payload) => [Effect.reply (.text payload)]
    | none => [Effect.reply (.text [])]

/-- The request `Bot.receive` builds from a parsed component list. -/
def mkRequest (b : BotM) (m : MessageIn) (components : List Str) : Request :=
  { message := m.content
    components := components
    commands := (weakDive b.commands components).1
    command := (weakDive b.commands components).2
    rest := restOf b.pfx (weakDive b.commands components).1 m.content
    args := components.drop (weakDive b.commands components).1.length }

/-- The branch structure of `Bot.receive` after a successful parse
(src/discorb.ts:370-387).  `runAct` is the oracle interpreting a command
action call: `none` for normal completion, `some e` for a thrown error (or
rejected promise), which `receive` catches and routes to `onError`. -/
def dispatch (b : BotM) (runAct : Nat → Request → Option Str)
    (runHelp : Nat → Except Str Str) (m : MessageIn) (components : List Str) :
    List Effect :=
  let wd := weakDive b.commands components
  let args := components.drop wd.1.length
  let request := mkRequest b m components
  if args.length == 1 &&
      (match wd.2 with
       | none => args.headD [] == strHelp
       | some c => args.headD [] == strDashHelp && c.help.isSome) then
    onHelpEffects b runHelp request
  else
    match wd.2 with
    | none => [Effect.reply (.text b.invalidCommandError)]
    | some c =>
      Effect.invoke c.action request ::
        (match runAct c.action request with
         | none => []
         | some e => onErrorEffects b e)

/-- The outcome of one `Bot.receive` call. -/
inductive ReceiveOut where
  /-- The `return false` branches ("clearly not intended for the bot"). -/
  | notForBot
  /-- A dispatch that ran to the end, with its observable effects. -/
  | completed (effects : List Effect)
  /-- The interpolated `RegExp` source built at the `rest` computation
  contains unescaped metacharacters (the prefix or a consumed segment fails
  `regexLit`).  In the real program this happens before any branch and
  outside the `try`: `new RegExp` may throw a `SyntaxError` that escapes
  `receive` (e.g. prefix `(`), or the pattern may match non-literally (e.g.
  prefix `$`, command `a+b`).  This embedding does not model JS regex
  semantics on such sources and makes no claim about them. -/
  | unmodelled

/-- The effects of a completed dispatch, if the outcome is one. -/
def ReceiveOut.effects : ReceiveOut → Option (List Effect)
  | .completed effs => some effs
  | _ => none

/-- models `Bot.receive` (src/discorb.ts:353-387).  The `rest` regular
expression is built (and can only misbehave) after the permissive walk and
before any branch, which is where the `regexLit` guard sits. -/
def receive (b : BotM) (runAct : Nat → Request → Option Str)
    (runHelp : Nat → Except Str Str) (m : MessageIn) : ReceiveOut :=
  if m.authorBot then .notForBot
  else if (parse b.pfx m.content).length = 0 then .notForBot
  else if regexLit b.pfx &&
      ((weakDive b.commands (parse b.pfx m.content)).1).all regexLit then
    .completed (dispatch b runAct runHelp m (parse b.pfx m.content))
  else .unmodelled

/-- All characters whitespace. -/
def allWs (s : Str) : Bool := s.all isWs

/-- No character whitespace. -/
def wsFree (s : Str) : Bool := s.all (fun c => !isWs c)

/-- `t0 t1 … tn` joined by single spaces (the canonical shape of a message
body whose tokens are `comps`). -/
def joinTok : List Str → Str
  | [] => []
  | [t] => t
  | t :: t' :: ts => t ++ ' ' :: joinTok (t' :: ts)

/-- The space-prefixed tail form of `joinTok`. -/
def sjoin : List Str → Str
  | [] => []
  | t :: ts => ' ' :: (t ++ sjoin ts)

/-- Every token is nonempty and whitespace-free (tokens produced by the
parser always satisfy this). -/
def goodToks (l : List Str) : Prop := ∀ t ∈ l, t ≠ [] ∧ wsFree t = true

/-- The nodes and tree `a → aa → aaa` used by the spec's permissive-walk
example. -/
def exAAA : Command := .mk 2 none []

def exAA : Command := .mk 1 none [("aaa".toList, exAAA)]

def exA : Command := .mk 0 none [("aa".toList, exAA)]

def exTree : List (Str × Command) := [("a".toList, exA)]

/-- The trees produced by registering `a`, then `a b`, then `a b c`. -/
def regT1 : List (Str × Command) := [("a".toList, .mk 0 none [])]

def regT2 : List (Str × Command) := [("a".toList, .mk 0 none [("b".toList, .mk 1 none [])])]

def regT3 : List (Str × Command) :=
  [("a".toList, .mk 0 none [("b".toList, .mk 1 none [("c".toList, .mk 2 none [])])])]

/-! ## Whitespace and trimming lemmas -/

theorem allWs_mem {s : Str} {c : Char} (h : allWs s = true) (hc : c ∈ s) : isWs c = true := by
  simp only [allWs, List.all_eq_true] at h
  exact h c hc

theorem wsFree_mem {s : Str} {c : Char} (h : wsFree s = true) (hc : c ∈ s) : isWs c = false := by
  simp only [wsFree, List.all_eq_true, Bool.not_eq_true'] at h
  exact h c hc

theorem dropWhile_allWs_append {a : Str} (b : Str) (h : allWs a = true) :
    (a ++ b).dropWhile isWs = b.dropWhile isWs := by
  induction a with
  | nil => rfl
  | cons c cs ih =>
    have hc : isWs c = true := allWs_mem h (List.mem_cons_self c cs)
    have hcs : allWs cs = true := by
      simp only [allWs, List.all_eq_true] at h ⊢
      exact fun x hx => h x (List.mem_cons_of_mem c hx)
    simp [List.dropWhile_cons, hc, ih hcs]

theorem dropWhile_allWs {a : Str} (h : allWs a = true) : a.dropWhile isWs = [] := by
  have := @dropWhile_allWs_append a [] h
  simpa using this

theorem rtrim_append_allWs (m : Str) {w : Str} (h : allWs w = true) :
    rtrim (m ++ w) = rtrim m := by
  have hrev : allWs w.reverse = true := by
    simp only [allWs, List.all_eq_true] at h ⊢
    exact fun x hx => h x (List.mem_reverse.mp hx)
  simp only [rtrim, List.reverse_append, dropWhile_allWs_append _ hrev]

theorem ltrim_cons_nonWs {c : Char} (cs : Str) (h : isWs c = false) :
    ltrim (c :: cs) = c :: cs := by
  simp [ltrim, List.dropWhile_cons, h]

theorem rtrim_eq_self {s : Str} (h : ∀ c, s.getLast? = some c → isWs c = false) :
    rtrim s = s := by
  rcases hr : s.reverse with _ | ⟨c, cs⟩
  · have : s = [] := by simpa using congrArg List.reverse hr
    simp [this, rtrim]
  · have hlast : s.getLast? = some c := by
      rw [← List.head?_reverse, hr]; rfl
    have hc : isWs c = false := h c hlast
    have : (c :: cs).dropWhile isWs = c :: cs := by
      simp [List.dropWhile_cons, hc]
    calc rtrim s = ((c :: cs).dropWhile isWs).reverse := by rw [rtrim, hr]
    _ = (c :: cs).reverse := by rw [this]
    _ = s.reverse.reverse := by rw [hr]
    _ = s := by simp

theorem jsTrim_append_allWs (m : Str) {w : Str} (h : allWs w = true) :
    jsTrim (m ++ w) = jsTrim m := by
  induction m with
  | nil =>
    simp only [List.nil_append, jsTrim, ltrim, dropWhile_allWs h]
    rfl
  | cons c cs ih =>
    by_cases hc : isWs c = true
    · have h1 : jsTrim (c :: cs ++ w) = jsTrim (cs ++ w) := by
        simp [jsTrim, ltrim, List.dropWhile_cons, hc]
      have h2 : jsTrim (c :: cs) = jsTrim cs := by
        simp [jsTrim, ltrim, List.dropWhile_cons, hc]
      rw [h1, h2]; exact ih
    · have hc' : isWs c = false := by simpa using hc
      have h1 : jsTrim (c :: cs ++ w) = rtrim ((c :: cs) ++ w) := by
        simp [jsTrim, ltrim, List.dropWhile_cons, hc']
      have h2 : jsTrim (c :: cs) = rtrim (c :: cs) := by
        simp [jsTrim, ltrim, List.dropWhile_cons, hc']
      rw [h1, h2, rtrim_append_allWs _ h]

theorem isPrefixOf_append_allWs {pfx : Str} (m : Str) {w : Str}
    (hp : wsFree pfx = true) (hw : allWs w = true) :
    pfx.isPrefixOf (m ++ w) = pfx.isPrefixOf m := by
  cases h : pfx.isPrefixOf m with
  | true =>
    have : pfx <+: m := List.isPrefixOf_iff_prefix.mp h
    have : pfx <+: m ++ w := this.trans (List.prefix_append m w)
    exact List.isPrefixOf_iff_prefix.mpr this
  | false =>
    by_contra hne
    simp only [Bool.not_eq_false] at hne
    have hpre : pfx <+: m ++ w := List.isPrefixOf_iff_prefix.mp hne
    by_cases hlen : pfx.length ≤ m.length
    · have htk : pfx = (m ++ w).take pfx.length := List.prefix_iff_eq_take.mp hpre
      have : pfx = m.take pfx.length := by
        rw [htk, List.take_append_eq_append_take, Nat.sub_eq_zero_of_le hlen]
        simp
      have : pfx <+: m := this ▸ List.take_prefix pfx.length m
      rw [List.isPrefixOf_iff_prefix.mpr this] at h
      exact Bool.false_ne_true h.symm
    · push_neg at hlen
      have htk : pfx = (m ++ w).take pfx.length := List.prefix_iff_eq_take.mp hpre
      have hm : m.take pfx.length = m := List.take_of_length_le (Nat.le_of_lt hlen)
      rw [List.take_append_eq_append_take, hm] at htk
      set k := pfx.length - m.length with hk
      have hkpos : 0 < k := Nat.sub_pos_of_lt hlen
      have hne2 : w.take k ≠ [] := by
        intro h0
        rw [h0, List.append_nil] at htk
        exact absurd (congrArg List.length htk) (by omega)
      have hc : (w.take k).head hne2 ∈ w.take k := List.head_mem hne2
      have hcw : (w.take k).head hne2 ∈ w := List.take_subset k w hc
      have hcp : (w.take k).head hne2 ∈ pfx := htk ▸ List.mem_append_right m hc
      have h1 : isWs ((w.take k).head hne2) = false := wsFree_mem hp hcp
      have h2 : isWs ((w.take k).head hne2) = true := allWs_mem hw hcw
      rw [h1] at h2
      exact Bool.false_ne_true h2

theorem parse_not_prefixed {pfx msg : Str} (h : pfx.isPrefixOf msg = false) :
    parse pfx msg = [] := by
  simp [parse, h]

theorem mem_of_getLast?_eq {l : List Char} {c : Char} (h : l.getLast? = some c) : c ∈ l := by
  have h' : l.reverse.head? = some c := by rw [List.head?_reverse]; exact h
  rcases hr : l.reverse with _ | ⟨d, ds⟩
  · rw [hr] at h'; exact absurd h' (by simp)
  · rw [hr] at h'
    have hd : d = c := by simpa using h'
    have : d ∈ l.reverse := hr ▸ List.mem_cons_self d ds
    exact List.mem_reverse.mp (hd ▸ this)

theorem jsTrim_wsFree {s : Str} (h : wsFree s = true) : jsTrim s = s := by
  have hl : ltrim s = s := by
    cases s with
    | nil => rfl
    | cons c cs => exact ltrim_cons_nonWs cs (wsFree_mem h (List.mem_cons_self c cs))
  rw [jsTrim, hl]
  exact rtrim_eq_self fun c hc => wsFree_mem h (mem_of_getLast?_eq hc)

/-! ## Collapse and split lemmas -/

theorem wsFree_no_space {t : Str} (h : wsFree t = true) {c : Char} (hc : c ∈ t) :
    (c == ' ') = false := by
  have := wsFree_mem h hc
  cases hcc : (c == ' ') with
  | false => rfl
  | true =>
    have : c = ' ' := by simpa using hcc
    subst this
    simp [isWs] at *

theorem collapseFlag_nonWs_cons {c : Char} {b : Bool} (cs : Str) (h : isWs c = false) :
    collapseFlag b (c :: cs) = c :: collapseFlag false cs := by
  cases b <;> simp [collapseFlag, h]

theorem collapseFlag_wsFree_append {t : Str} (r : Str) (h : wsFree t = true) :
    collapseFlag false (t ++ r) = t ++ collapseFlag false r := by
  induction t with
  | nil => rfl
  | cons c cs ih =>
    have hc : isWs c = false := wsFree_mem h (List.mem_cons_self c cs)
    have hcs : wsFree cs = true := by
      simp only [wsFree, List.all_eq_true] at h ⊢
      exact fun x hx => h x (List.mem_cons_of_mem c hx)
    rw [List.cons_append, collapseFlag_nonWs_cons _ hc, ih hcs, List.cons_append]

theorem collapseFlag_wsFree {t : Str} (h : wsFree t = true) : collapseFlag false t = t := by
  have := collapseFlag_wsFree_append [] h
  simpa [collapseFlag] using this

theorem joinTok_cons : ∀ (ts : List Str) (t : Str), joinTok (t :: ts) = t ++ sjoin ts
  | [], t => by simp [joinTok, sjoin]
  | t' :: ts', t => by
    rw [joinTok, joinTok_cons ts' t', sjoin]

theorem goodToks_head {t : Str} {ts : List Str} (h : goodToks (t :: ts)) :
    t ≠ [] ∧ wsFree t = true := h t (List.mem_cons_self t ts)

theorem goodToks_tail {t : Str} {ts : List Str} (h : goodToks (t :: ts)) : goodToks ts :=
  fun x hx => h x (List.mem_cons_of_mem t hx)

theorem collapseFlag_true_good_append {t : Str} (r : Str) (hne : t ≠ [])
    (h : wsFree t = true) : collapseFlag true (t ++ r) = t ++ collapseFlag false r := by
  cases t with
  | nil => exact absurd rfl hne
  | cons c cs =>
    have hc : isWs c = false := wsFree_mem h (List.mem_cons_self c cs)
    have hcs : wsFree cs = true := by
      simp only [wsFree, List.all_eq_true] at h ⊢
      exact fun x hx => h x (List.mem_cons_of_mem c hx)
    rw [List.cons_append, collapseFlag_nonWs_cons _ hc, collapseFlag_wsFree_append _ hcs,
      List.cons_append]

theorem collapseFlag_sjoin : ∀ (ts : List Str), goodToks ts →
    collapseFlag false (sjoin ts) = sjoin ts
  | [], _ => rfl
  | t :: ts', h => by
    have hsp : collapseFlag false (' ' :: (t ++ sjoin ts')) =
        ' ' :: collapseFlag true (t ++ sjoin ts') := by
      simp [collapseFlag, isWs]
    rw [sjoin, hsp, collapseFlag_true_good_append _ (goodToks_head h).1 (goodToks_head h).2,
      collapseFlag_sjoin ts' (goodToks_tail h)]

theorem collapse_canonical {pfx : Str} (comps : List Str) (hp : wsFree pfx = true)
    (h : goodToks comps) : collapseWs (pfx ++ joinTok comps) = pfx ++ joinTok comps := by
  rw [collapseWs, collapseFlag_wsFree_append _ hp]
  cases comps with
  | nil => rfl
  | cons t ts =>
    rw [joinTok_cons, collapseFlag_wsFree_append _ (goodToks_head h).2,
      collapseFlag_sjoin ts (goodToks_tail h)]

theorem splitAux_noSpace_append : ∀ (t acc r : Str), (∀ c ∈ t, (c == ' ') = false) →
    splitAux acc (t ++ r) = splitAux (t.reverse ++ acc) r
  | [], acc, r, _ => by simp [splitAux]
  | c :: cs, acc, r, h => by
    have hc : (c == ' ') = false := h c (List.mem_cons_self c cs)
    rw [List.cons_append, splitAux, hc]
    simp only [Bool.false_eq_true, if_false]
    rw [splitAux_noSpace_append cs (c :: acc) r (fun x hx => h x (List.mem_cons_of_mem c hx))]
    simp [List.reverse_cons, List.append_assoc]

theorem splitAux_noSpace (t acc : Str) (h : ∀ c ∈ t, (c == ' ') = false) :
    splitAux acc t = [acc.reverse ++ t] := by
  have := splitAux_noSpace_append t acc [] h
  rw [List.append_nil] at this
  rw [this, splitAux]
  simp

theorem split_joinTok : ∀ (comps : List Str), comps ≠ [] →
    (∀ t ∈ comps, ∀ c ∈ t, (c == ' ') = false) → splitOnSpace (joinTok comps) = comps
  | [], h, _ => absurd rfl h
  | [t], _, h => by
    rw [joinTok, splitOnSpace, splitAux_noSpace t [] (h t (List.mem_cons_self t []))]
    simp
  | t :: t' :: ts, _, h => by
    rw [joinTok, splitOnSpace, splitAux_noSpace_append t []
      (' ' :: joinTok (t' :: ts)) (h t (List.mem_cons_self t _))]
    rw [splitAux]
    simp only [beq_self_eq_true, if_true]
    have := split_joinTok (t' :: ts) (by simp)
      (fun x hx => h x (List.mem_cons_of_mem t hx))
    rw [splitOnSpace] at this
    rw [this]
    simp

theorem eq_nil_of_getLast?_eq_none {l : List Char} (h : l.getLast? = none) : l = [] := by
  have h1 : l.reverse.head? = none := by rw [List.head?_reverse]; exact h
  have h2 : l.reverse = [] := List.head?_eq_none_iff.mp h1
  simpa using congrArg List.reverse h2

theorem joinTok_ne_nil {comps : List Str} (hc : comps ≠ []) (h : goodToks comps) :
    joinTok comps ≠ [] := by
  cases comps with
  | nil => exact absurd rfl hc
  | cons t ts =>
    rw [joinTok_cons]
    intro h0
    exact (goodToks_head h).1 (List.append_eq_nil.mp h0).1

theorem joinTok_getLast_nonWs : ∀ (comps : List Str), goodToks comps →
    ∀ c, (joinTok comps).getLast? = some c → isWs c = false
  | [], _, c, h => by simp [joinTok] at h
  | [t], hg, c, h => by
    rw [joinTok] at h
    exact wsFree_mem (goodToks_head hg).2 (mem_of_getLast?_eq h)
  | t :: t' :: ts, hg, c, h => by
    have hne : joinTok (t' :: ts) ≠ [] := joinTok_ne_nil (by simp) (goodToks_tail hg)
    rcases hx : (joinTok (t' :: ts)).getLast? with _ | x
    · exact absurd (eq_nil_of_getLast?_eq_none hx) hne
    · rw [joinTok, List.getLast?_append] at h
      have hcons : (' ' :: joinTok (t' :: ts)).getLast? = some x := by
        rcases hj : joinTok (t' :: ts) with _ | ⟨d, ds⟩
        · exact absurd hj hne
        · rw [hj] at hx; rw [List.getLast?_cons_cons, hx]
      rw [hcons] at h
      have hxc : x = c := by simpa using h
      exact hxc ▸ joinTok_getLast_nonWs (t' :: ts) (goodToks_tail hg) x hx

theorem jsTrim_canonical {pfx : Str} (comps : List Str) (hp : wsFree pfx = true)
    (hpne : pfx ≠ []) (hc : comps ≠ []) (h : goodToks comps) :
    jsTrim (pfx ++ joinTok comps) = pfx ++ joinTok comps := by
  have hl : ltrim (pfx ++ joinTok comps) = pfx ++ joinTok comps := by
    cases pfx with
    | nil => exact absurd rfl hpne
    | cons p ps =>
      rw [List.cons_append]
      exact ltrim_cons_nonWs _ (wsFree_mem hp (List.mem_cons_self p ps))
  rw [jsTrim, hl]
  apply rtrim_eq_self
  intro c hgl
  have hne : joinTok comps ≠ [] := joinTok_ne_nil hc h
  rw [List.getLast?_append] at hgl
  rcases hx : (joinTok comps).getLast? with _ | x
  · exact absurd (eq_nil_of_getLast?_eq_none hx) hne
  · rw [hx] at hgl
    have hxc : x = c := by simpa using hgl
    exact hxc ▸ joinTok_getLast_nonWs comps h x hx

/-- A message of the canonical shape `prefix ++ token₀ ␣ token₁ ␣ … ␣ tokenₙ`
parses exactly to its token list. -/
theorem parse_canonical (pfx : Str) (comps : List Str) (hp : wsFree pfx = true)
    (hpne : pfx ≠ []) (hcne : comps ≠ []) (ht : goodToks comps) :
    parse pfx (pfx ++ joinTok comps) = comps := by
  rcases comps with _ | ⟨t0, ts⟩
  · exact absurd rfl hcne
  have hpre : pfx.isPrefixOf (pfx ++ joinTok (t0 :: ts)) = true :=
    List.isPrefixOf_iff_prefix.mpr (List.prefix_append _ _)
  have htrim := jsTrim_canonical (t0 :: ts) hp hpne (by simp) ht
  have hcol := collapse_canonical (t0 :: ts) hp ht
  have hjoin : pfx ++ joinTok (t0 :: ts) = joinTok ((pfx ++ t0) :: ts) := by
    rw [joinTok_cons, joinTok_cons ts (pfx ++ t0), List.append_assoc]
  have hsplit : splitOnSpace (pfx ++ joinTok (t0 :: ts)) = (pfx ++ t0) :: ts := by
    rw [hjoin]
    apply split_joinTok _ (by simp)
    intro t htm c hcm
    rcases List.mem_cons.mp htm with rfl | hts
    · rcases List.mem_append.mp hcm with hcp | hct
      · exact wsFree_no_space hp hcp
      · exact wsFree_no_space (goodToks_head ht).2 hct
    · exact wsFree_no_space (ht t (List.mem_cons_of_mem _ hts)).2 hcm
  have hne0 : ¬(pfx ++ t0 = pfx) := fun heq =>
    (goodToks_head ht).1 (List.append_right_eq_self.mp heq)
  simp only [parse, hpre, if_true]
  rw [htrim, hcol, hsplit]
  show (if pfx ++ t0 = pfx then [] else (pfx ++ t0).drop pfx.length :: ts) = t0 :: ts
  rw [if_neg hne0, List.drop_left]

/-- A bare prefix, possibly followed by whitespace only, parses to `[]`. -/
theorem parse_bare {pfx w : Str} (hp : wsFree pfx = true)
    (hw : allWs w = true) : parse pfx (pfx ++ w) = [] := by
  have hpre : pfx.isPrefixOf (pfx ++ w) = true :=
    List.isPrefixOf_iff_prefix.mpr (List.prefix_append _ _)
  have htrim : jsTrim (pfx ++ w) = pfx := by
    rw [jsTrim_append_allWs _ hw, jsTrim_wsFree hp]
  have hcol : collapseWs pfx = pfx := collapseFlag_wsFree hp
  have hsplit : splitOnSpace pfx = [pfx] := by
    have := splitAux_noSpace pfx [] (fun c hc => wsFree_no_space hp hc)
    simpa [splitOnSpace] using this
  simp only [parse, hpre, if_true]
  rw [htrim, hcol, hsplit]
  show (if pfx = pfx then [] else (pfx).drop pfx.length :: []) = []
  rw [if_pos rfl]

/-- The positive branch of the parser, exactly as the code computes it. -/
theorem parse_pos {pfx msg t : Str} {ts : List Str} (hpre : pfx.isPrefixOf msg = true)
    (hsplit : splitOnSpace (collapseWs (jsTrim msg)) = t :: ts) (hne : t ≠ pfx) :
    parse pfx msg = t.drop pfx.length :: ts := by
  simp only [parse, hpre, if_true]
  rw [hsplit]
  show (if t = pfx then [] else t.drop pfx.length :: ts) = t.drop pfx.length :: ts
  rw [if_neg hne]

/-- C3: `parse` implements the specified algorithm: a message not starting
with the configured prefix yields `[]`; a message that is only the prefix
(or the prefix followed solely by whitespace) yields `[]`; otherwise the
trimmed message has its whitespace runs collapsed to single spaces, is split
on spaces, exactly one prefix length is stripped from the first token, and
the full corrected token list is returned.  For prefix `;;`:
`;;test my script` gives `["test","my","script"]`, `;;test   my` gives
`["test","my"]`, and `;;;;test` gives `[";;test"]`. -/
theorem c3_parse_algorithm :
    (∀ pfx msg : Str, pfx.isPrefixOf msg = false → parse pfx msg = []) ∧
    (∀ pfx w : Str, wsFree pfx = true → pfx ≠ [] → allWs w = true →
      parse pfx (pfx ++ w) = []) ∧
    (∀ (pfx msg t : Str) (ts : List Str), pfx.isPrefixOf msg = true →
      splitOnSpace (collapseWs (jsTrim msg)) = t :: ts → t ≠ pfx →
      parse pfx msg = t.drop pfx.length :: ts) ∧
    parse ";;".toList ";;test my script".toList =
      ["test".toList, "my".toList, "script".toList] ∧
    parse ";;".toList ";;test   my".toList = ["test".toList, "my".toList] ∧
    parse ";;".toList ";;;;test".toList = [";;test".toList] ∧
    parse ";;".toList ";;".toList = [] ∧
    parse ";;".toList ";;   ".toList = [] :=
  ⟨fun _ _ h => parse_not_prefixed h,
   fun _ _ hp _ hw => parse_bare hp hw,
   fun _ _ _ _ hpre hsplit hne => parse_pos hpre hsplit hne,
   by decide, by decide, by decide, by decide, by decide⟩

/-- Witness for C3 at concrete inputs. -/
theorem c3_parse_algorithm_witness :
    parse ";;".toList "hello there".toList = [] ∧
    parse "!".toList ("!".toList ++ "  ".toList) = [] :=
  ⟨c3_parse_algorithm.1 ";;".toList "hello there".toList (by decide),
   c3_parse_algorithm.2.1 "!".toList "  ".toList (by decide) (by decide) (by decide)⟩

/-- C4 counterexample: leading whitespace is significant.  With prefix `;;`,
the message `  ;;test` (leading whitespace `w1 = "  "`, `m = ";;test"`,
`w2 = ""`) parses to `[]`, while `;;test` parses to `["test"]` — the
prefix check runs before trimming, so `parse (w1 ++ m ++ w2) ≠ parse m`. -/
theorem c4_counterexample :
    parse ";;".toList "  ;;test".toList ≠ parse ";;".toList ";;test".toList ∧
    parse ";;".toList "  ;;test".toList = [] ∧
    parse ";;".toList ";;test".toList = ["test".toList] :=
  ⟨by decide, by decide, by decide⟩

/-- C4 (amended): trailing whitespace in the raw message does not affect
parsing — `parse (m ++ w2) = parse m` for whitespace `w2` — but leading
whitespace does: for nonempty whitespace `w1` the padded message no longer
starts with the prefix, so `parse (w1 ++ m ++ w2) = []` (in particular
`  ;;test` parses to `[]`, unlike `;;test`). -/
theorem c4_whitespace (pfx m w1 w2 : Str) (hp : wsFree pfx = true) (hpne : pfx ≠ [])
    (hw1 : allWs w1 = true) (hw2 : allWs w2 = true) :
    parse pfx (m ++ w2) = parse pfx m ∧
    (w1 ≠ [] → parse pfx (w1 ++ (m ++ w2)) = []) := by
  constructor
  · cases h : pfx.isPrefixOf m with
    | true =>
      have h2 : pfx.isPrefixOf (m ++ w2) = true := by
        rw [isPrefixOf_append_allWs m hp hw2]; exact h
      simp only [parse, h, h2, if_true]
      rw [jsTrim_append_allWs m hw2]
    | false =>
      have h2 : pfx.isPrefixOf (m ++ w2) = false := by
        rw [isPrefixOf_append_allWs m hp hw2]; exact h
      rw [parse_not_prefixed h2, parse_not_prefixed h]
  · intro hne
    apply parse_not_prefixed
    rcases pfx with _ | ⟨p, ps⟩
    · exact absurd rfl hpne
    · rcases w1 with _ | ⟨c, cs⟩
      · exact absurd rfl hne
      · have hpc : (p == c) = false := by
          apply beq_eq_false_iff_ne.mpr
          intro heq
          have h1 : isWs p = false := wsFree_mem hp (List.mem_cons_self p ps)
          have h2 : isWs c = true := allWs_mem hw1 (List.mem_cons_self c cs)
          rw [heq, h2] at h1
          exact Bool.false_ne_true h1.symm
        show List.isPrefixOf (p :: ps) (c :: (cs ++ (m ++ w2))) = false
        simp [List.isPrefixOf, hpc]

/-- Witness for C4's amended statement at concrete inputs. -/
theorem c4_whitespace_witness :
    parse ";;".toList (";;x".toList ++ " ".toList) = parse ";;".toList ";;x".toList ∧
    parse ";;".toList ("  ".toList ++ (";;x".toList ++ " ".toList)) = [] := by
  have h := c4_whitespace ";;".toList ";;x".toList "  ".toList " ".toList
    (by decide) (by decide) (by decide) (by decide)
  exact ⟨h.1, h.2 (by decide)⟩

/-! ## Tree-walk lemmas -/

theorem weakDiveGo_fst_prefix (root : List (Str × Command)) (segs : List Str) :
    ∀ cur, (weakDiveGo root cur segs).1 <+: segs := by
  induction segs with
  | nil => intro cur; simp [weakDiveGo]
  | cons s rest ih =>
    intro cur
    cases hstep : step root cur s with
    | none => simp [weakDiveGo, hstep]
    | some c =>
      simp only [weakDiveGo, hstep]
      rcases ih (some c) with ⟨t, ht⟩
      exact ⟨t, by rw [List.cons_append, ht]⟩

theorem dive_agree (root : List (Str × Command)) (segs : List Str) :
    ∀ cur, strictDiveGo root cur (weakDiveGo root cur segs).1 = (weakDiveGo root cur segs).2 := by
  induction segs with
  | nil => intro cur; simp [weakDiveGo, strictDiveGo]
  | cons s rest ih =>
    intro cur
    cases hstep : step root cur s with
    | none => simp [weakDiveGo, strictDiveGo, hstep]
    | some c =>
      simp only [weakDiveGo, hstep]
      rw [strictDiveGo, hstep]
      exact ih (some c)

theorem weak_resolves_all (root : List (Str × Command)) (segs : List Str) :
    ∀ cur c, strictDiveGo root cur segs = some c →
      weakDiveGo root cur segs = (segs, some c) := by
  induction segs with
  | nil =>
    intro cur c h
    rw [strictDiveGo] at h
    simp [weakDiveGo, h]
  | cons s rest ih =>
    intro cur c h
    cases hstep : step root cur s with
    | none => rw [strictDiveGo, hstep] at h; exact absurd h (by simp)
    | some c' =>
      rw [strictDiveGo, hstep] at h
      have := ih (some c') c h
      simp [weakDiveGo, hstep, this]

theorem weak_longest (root : List (Str × Command)) (segs : List Str) :
    ∀ cur k, (weakDiveGo root cur segs).1.length < k → k ≤ segs.length →
      strictDiveGo root cur (segs.take k) = none := by
  induction segs with
  | nil =>
    intro cur k h1 h2
    simp only [List.length_nil] at h2
    simp only [weakDiveGo, List.length_nil] at h1
    omega
  | cons s rest ih =>
    intro cur k h1 h2
    cases hstep : step root cur s with
    | none =>
      rcases k with _ | k'
      · simp at h1
      · rw [List.take_succ_cons, strictDiveGo, hstep]
    | some c =>
      rcases k with _ | k'
      · simp at h1
      · rw [List.take_succ_cons, strictDiveGo, hstep]
        apply ih (some c) k'
        · simp only [weakDiveGo, hstep, List.length_cons] at h1
          omega
        · simpa using h2

theorem weak_some_of_cur (root : List (Str × Command)) (rest : List Str) :
    ∀ c, ((weakDiveGo root (some c) rest).2).isSome = true := by
  induction rest with
  | nil => intro c; simp [weakDiveGo]
  | cons s rest' ih =>
    intro c
    cases hstep : step root (some c) s with
    | none => simp [weakDiveGo, hstep]
    | some c' =>
      simp only [weakDiveGo, hstep]
      exact ih c'

theorem weak_through_some (root : List (Str × Command)) (segs : List Str) (cur : Option Command)
    (h : (weakDiveGo root cur segs).1 ≠ []) :
    ((weakDiveGo root cur segs).2).isSome = true := by
  cases segs with
  | nil => simp [weakDiveGo] at h
  | cons s rest =>
    cases hstep : step root cur s with
    | none => simp [weakDiveGo, hstep] at h
    | some c =>
      simp only [weakDiveGo, hstep]
      exact weak_some_of_cur root rest c

theorem weak_take_resolvable (root : List (Str × Command)) (segs : List Str) :
    ∀ cur k, 1 ≤ k → k ≤ (weakDiveGo root cur segs).1.length →
      (strictDiveGo root cur ((weakDiveGo root cur segs).1.take k)).isSome = true := by
  induction segs with
  | nil =>
    intro cur k h1 h2
    simp only [weakDiveGo, List.length_nil] at h2
    omega
  | cons s rest ih =>
    intro cur k h1 h2
    cases hstep : step root cur s with
    | none =>
      simp only [weakDiveGo, hstep, List.length_nil] at h2
      omega
    | some c =>
      simp only [weakDiveGo, hstep, List.length_cons] at h2 ⊢
      rcases k with _ | k'
      · omega
      · rw [List.take_succ_cons, strictDiveGo, hstep]
        rcases Nat.eq_zero_or_pos k' with rfl | hk'
        · simp [strictDiveGo]
        · exact ih (some c) k' hk' (by omega)

/-- C5: `weakDive` returns the longest-registered-prefix match: `through` is
a prefix of the components, every positive-length prefix of `through`
(hence `through` itself) resolves, no strictly longer prefix of the
components resolves, `command` is exactly the node the strict walk reaches at
`through` (absent only when `through` is empty), and — the tree `a→aa→aaa`
examples — `weakDive ["a","aa","x"]` is `(["a","aa"], node aa)` and
`weakDive ["z","a"]` is `([], absent)`; the walk is a function of the tree,
hence deterministic. -/
theorem c5_weakDive_longest_match :
    (∀ (root : List (Str × Command)) (comps : List Str),
      (weakDive root comps).1 <+: comps ∧
      strictDive root (weakDive root comps).1 = (weakDive root comps).2 ∧
      ((weakDive root comps).1 ≠ [] → ((weakDive root comps).2).isSome = true) ∧
      ((weakDive root comps).2 = none → (weakDive root comps).1 = []) ∧
      (∀ k, (weakDive root comps).1.length < k → k ≤ comps.length →
        strictDive root (comps.take k) = none)) ∧
    weakDive exTree ["a".toList, "aa".toList, "x".toList] =
      (["a".toList, "aa".toList], some exAA) ∧
    weakDive exTree ["z".toList, "a".toList] = ([], none) := by
  refine ⟨fun root comps => ⟨?_, ?_, ?_, ?_, ?_⟩, rfl, rfl⟩
  · exact weakDiveGo_fst_prefix root comps none
  · exact dive_agree root comps none
  · exact weak_through_some root comps none
  · intro h2
    by_contra hne
    have hs := weak_through_some root comps none hne
    simp only [weakDive] at h2
    rw [h2] at hs
    simp at hs
  · intro k h1 h2
    exact weak_longest root comps none k h1 h2

/-- Witness for C5 at a concrete tree and input. -/
theorem c5_weakDive_longest_match_witness :
    strictDive exTree (["a".toList, "z".toList].take 2) = none :=
  ((c5_weakDive_longest_match.1 exTree ["a".toList, "z".toList]).2.2.2.2) 2
    (by decide) (by decide)

/-! ## Registration lemmas -/

theorem splitAux_ne_nil : ∀ (t acc : Str), splitAux acc t ≠ []
  | [], acc => by simp [splitAux]
  | c :: cs, acc => by
    rw [splitAux]
    cases hc : (c == ' ') with
    | true => simp
    | false =>
      simp only [Bool.false_eq_true, if_false]
      exact splitAux_ne_nil cs (c :: acc)

theorem splitOnSpace_ne_nil (s : Str) : splitOnSpace s ≠ [] := splitAux_ne_nil s []

/-- C1 (amended): calling `register` with a path at which a node already
exists never overwrites: the permissive walk consumes the whole path, so
neither success branch applies and registration fails with the structural
error `Unable to follow commands`, leaving the tree unchanged. -/
theorem c1_register_existing_path_fails (root : List (Str × Command)) (path : Str)
    (act : Nat) (hlp : Option Help) (sb : Option (List (Str × Command)))
    (h : (strictDive root (splitOnSpace path)).isSome = true) :
    register root path act hlp sb = .error unableMsg := by
  rcases ho : strictDive root (splitOnSpace path) with _ | c
  · rw [ho] at h; simp at h
  · have hw : weakDive root (splitOnSpace path) = (splitOnSpace path, some c) :=
      weak_resolves_all root (splitOnSpace path) none c ho
    have hpos : 0 < (splitOnSpace path).length :=
      List.length_pos.mpr (splitOnSpace_ne_nil path)
    have hA : ¬((weakDive root (splitOnSpace path)).2.isNone = true ∧
        (splitOnSpace path).length = 1) := by
      rintro ⟨h1, -⟩
      rw [hw] at h1
      simp at h1
    have hB : ¬((weakDive root (splitOnSpace path)).2.isSome = true ∧
        (weakDive root (splitOnSpace path)).1.length = (splitOnSpace path).length - 1) := by
      rintro ⟨-, h2⟩
      rw [hw] at h2
      simp only at h2
      omega
    simp only [register]
    rw [if_neg hA, if_neg hB]

/-- Witness for C1's amended statement at a concrete tree. -/
theorem c1_register_existing_path_fails_witness :
    register [("a".toList, Command.mk 0 none [])] "a".toList 1 none none =
      .error unableMsg :=
  c1_register_existing_path_fails [("a".toList, Command.mk 0 none [])] "a".toList 1 none none
    (by decide)

/-- C1 counterexample: registering `a` succeeds and puts a node at the exact
path `a`; calling `register` again with the same path `p = "a"` does not
succeed and overwrite — it raises the structural error. -/
theorem c1_counterexample :
    register [] "a".toList 0 none none = .ok [("a".toList, Command.mk 0 none [])] ∧
    (strictDive [("a".toList, Command.mk 0 none [])] (splitOnSpace "a".toList)).isSome
      = true ∧
    register [("a".toList, Command.mk 0 none [])] "a".toList 1 none none =
      .error unableMsg :=
  ⟨rfl, rfl, rfl⟩

/-- C2: registration is rejected with the structural error
`Unable to follow commands` (and, the model being pure, without any tree
mutation) whenever some proper ancestor of the path is not registered; and
registering `a`, then `a b`, then `a b c` in that order succeeds, after which
each of the three paths resolves to its node via the strict walk.  In
particular registering `a b` into an empty tree fails. -/
theorem c2_register_ordering :
    (∀ (root : List (Str × Command)) (path : Str) (act : Nat) (hlp : Option Help)
      (sb : Option (List (Str × Command))),
      (∃ k, 1 ≤ k ∧ k + 1 ≤ (splitOnSpace path).length ∧
        strictDive root ((splitOnSpace path).take k) = none) →
      register root path act hlp sb = .error unableMsg) ∧
    register [] "a b".toList 0 none none = .error unableMsg ∧
    register [] "a".toList 0 none none = .ok regT1 ∧
    register regT1 "a b".toList 1 none none = .ok regT2 ∧
    register regT2 "a b c".toList 2 none none = .ok regT3 ∧
    strictDive regT3 ["a".toList] =
      some (Command.mk 0 none [("b".toList, Command.mk 1 none
        [("c".toList, Command.mk 2 none [])])]) ∧
    strictDive regT3 ["a".toList, "b".toList] =
      some (Command.mk 1 none [("c".toList, Command.mk 2 none [])]) ∧
    strictDive regT3 ["a".toList, "b".toList, "c".toList] =
      some (Command.mk 2 none []) := by
  refine ⟨?_, rfl, rfl, rfl, rfl, rfl, rfl, rfl⟩
  rintro root path act hlp sb ⟨k, hk1, hk2, hnone⟩
  have hn : 2 ≤ (splitOnSpace path).length := by omega
  have hA : ¬((weakDive root (splitOnSpace path)).2.isNone = true ∧
      (splitOnSpace path).length = 1) := by
    rintro ⟨-, h1⟩; omega
  have hB : ¬((weakDive root (splitOnSpace path)).2.isSome = true ∧
      (weakDive root (splitOnSpace path)).1.length = (splitOnSpace path).length - 1) := by
    rintro ⟨hsome, hlen⟩
    have hk3 : k ≤ (weakDive root (splitOnSpace path)).1.length := by omega
    have hres := weak_take_resolvable root (splitOnSpace path) none k hk1 hk3
    have hpre := weakDiveGo_fst_prefix root (splitOnSpace path) none
    have htake : (weakDive root (splitOnSpace path)).1.take k = (splitOnSpace path).take k := by
      have heq : (weakDive root (splitOnSpace path)).1 =
          (splitOnSpace path).take (weakDive root (splitOnSpace path)).1.length :=
        List.prefix_iff_eq_take.mp hpre
      rw [heq, List.take_take]
      congr 1
      exact inf_eq_left.mpr hk3
    rw [weakDive] at htake
    rw [htake] at hres
    rw [strictDive] at hnone
    rw [hnone] at hres
    simp at hres
  simp only [register]
  rw [if_neg hA, if_neg hB]

/-- Witness for C2 at a concrete input. -/
theorem c2_register_ordering_witness :
    register [] "x y".toList 3 none none = .error unableMsg :=
  c2_register_ordering.1 [] "x y".toList 3 none none ⟨1, by decide, by decide, rfl⟩

/-! ## State-container lemmas -/

theorem dispatchCalls_none (p n : StateV) : ∀ l : List Nat,
    dispatchCalls (fun _ _ _ => none) l p n = (l.map (fun id => (id, p, n)), none) := by
  intro l
  induction l with
  | nil => rfl
  | cons id rest ih => simp [dispatchCalls, ih]

theorem alGet_alSet_self (k : Str) (v : α) : ∀ l : List (Str × α),
    alGet k (alSet k v l) = some v
  | [] => by simp [alGet, alSet]
  | (k', v') :: r => by
    by_cases h : k' = k
    · simp [alSet, h, alGet]
    · simp only [alSet, h, if_false]
      rw [alGet]
      simp only [h, if_false]
      exact alGet_alSet_self k v r

theorem alGet_alSet_ne {k k2 : Str} (h : k2 ≠ k) (v : α) : ∀ l : List (Str × α),
    alGet k (alSet k2 v l) = alGet k l
  | [] => by simp [alSet, alGet, h]
  | (k', v') :: r => by
    by_cases h2 : k' = k2
    · subst h2
      simp only [alSet, if_pos rfl]
      simp only [alGet]
      simp [h]
    · simp only [alSet, h2, if_false]
      simp only [alGet]
      by_cases h3 : k' = k
      · simp [h3]
      · simp only [h3, if_false]
        exact alGet_alSet_ne h v r

theorem alGet_eq_none_of_not_mem (k : Str) : ∀ l : List (Str × α),
    k ∉ alKeys l → alGet k l = none
  | [], _ => rfl
  | (k', v') :: r, h => by
    have h1 : k' ≠ k := by
      intro heq
      exact h (heq ▸ List.mem_cons_self k' (alKeys r))
    have h2 : k ∉ alKeys r := fun hm => h (List.mem_cons_of_mem k' hm)
    simp only [alGet, h1, if_false]
    exact alGet_eq_none_of_not_mem k r h2

theorem alGet_jsMerge : ∀ (part prev : StateV), (alKeys part).Nodup → ∀ k,
    alGet k (jsMerge prev part) =
      (match alGet k part with | some v => some v | none => alGet k prev)
  | [], prev, _, k => by simp [jsMerge, alGet]
  | (k0, v0) :: rest, prev, hnd, k => by
    have hstep : jsMerge prev ((k0, v0) :: rest) = jsMerge (alSet k0 v0 prev) rest := rfl
    have hk0 : k0 ∉ alKeys rest := by
      have := hnd
      simp only [alKeys, List.map_cons, List.nodup_cons] at this
      exact this.1
    have hnd' : (alKeys rest).Nodup := by
      have := hnd
      simp only [alKeys, List.map_cons, List.nodup_cons] at this
      exact this.2
    rw [hstep, alGet_jsMerge rest (alSet k0 v0 prev) hnd' k]
    by_cases hk : k0 = k
    · subst hk
      rw [alGet_eq_none_of_not_mem k0 rest hk0]
      simp only [alGet]
      simp [alGet_alSet_self]
    · simp only [alGet, hk, if_false]
      cases alGet k rest with
      | none => simp [alGet_alSet_ne hk v0 prev]
      | some v => rfl

/-- C8: every `setState` call synchronously replaces the state with the
shallow union of the previous state and the supplied partial (supplied keys
overwrite, all other keys persist — witnessed at the key level for partials
with duplicate-free keys, as JS object literals are), and then invokes every
registered listener exactly once, in registration order, with the exact
pre-call snapshot and the new merged value, unconditionally; registering the
same listener twice (by identity) does not re-add it, and such a listener
fires once per call. -/
theorem c8_setState_merge_notify :
    (∀ (b : BotS) (part : StateV),
      (setState b part).1.state = jsMerge b.state part ∧
      (setState b part).1.listeners = b.listeners ∧
      (setState b part).2 = b.listeners.map (fun id => (id, b.state, jsMerge b.state part))) ∧
    (∀ (prev part : StateV), (alKeys part).Nodup → ∀ k,
      alGet k (jsMerge prev part) =
        (match alGet k part with | some v => some v | none => alGet k prev)) ∧
    (∀ (b : BotS) (id : Nat), onStateUpdate (onStateUpdate b id) id = onStateUpdate b id) ∧
    (∀ (b : BotS) (id : Nat) (part : StateV), id ∉ b.listeners →
      ((setState (onStateUpdate b id) part).2.map Prod.fst).count id = 1) := by
  refine ⟨?_, fun prev part h k => alGet_jsMerge part prev h k, ?_, ?_⟩
  · intro b part
    refine ⟨rfl, rfl, ?_⟩
    simp [setState, setStateRun, dispatchCalls_none]
  · intro b id
    by_cases h : id ∈ b.listeners
    · simp [onStateUpdate, h]
    · simp [onStateUpdate, h]
  · intro b id part h
    have hl : (setState (onStateUpdate b id) part).2.map Prod.fst =
        b.listeners ++ [id] := by
      simp only [setState, setStateRun, dispatchCalls_none, onStateUpdate, h, if_false,
        List.map_append, List.map_map]
      rw [show (Prod.fst ∘ fun id : Nat => (id, b.state, jsMerge b.state part)) =
        (fun x : Nat => x) from rfl]
      simp
    rw [hl, List.count_append]
    rw [List.count_eq_zero_of_not_mem h]
    simp

/-- Witness for C8 at concrete inputs. -/
theorem c8_setState_merge_notify_witness :
    alGet "a".toList (jsMerge [("b".toList, 1)] [("a".toList, 2)]) =
      (match alGet "a".toList [(("a".toList : Str), 2)] with
       | some v => some v
       | none => alGet "a".toList [(("b".toList : Str), 1)]) ∧
    ((setState (onStateUpdate ⟨[], []⟩ 5) []).2.map Prod.fst).count 5 = 1 :=
  ⟨c8_setState_merge_notify.2.1 [("b".toList, 1)] [("a".toList, 2)] (by decide) "a".toList,
   c8_setState_merge_notify.2.2.2 ⟨[], []⟩ 5 [] (by decide)⟩

theorem dispatchCalls_err_of_exists (runL : Nat → StateV → StateV → Option Str)
    (p n : StateV) : ∀ l : List Nat, (∃ id ∈ l, runL id p n ≠ none) →
      ((dispatchCalls runL l p n).2).isSome = true := by
  intro l
  induction l with
  | nil => rintro ⟨id, hm, -⟩; simp at hm
  | cons id0 rest ih =>
    rintro ⟨id, hm, hne⟩
    cases h0 : runL id0 p n with
    | some e => simp [dispatchCalls, h0]
    | none =>
      rcases List.mem_cons.mp hm with rfl | hm'
      · exact absurd h0 hne
      · simp only [dispatchCalls, h0]
        exact ih ⟨id, hm', hne⟩

/-- C10: `setState` assigns the merged next value to the state field before
notifying any listener — every notification carries the merged value as its
`nextState` — and if a registered listener throws, the exception escapes the
`setState` call while the state keeps the merged value: the update is not
rolled back. -/
theorem c10_setState_no_rollback :
    ∀ (b : BotS) (part : StateV) (runL : Nat → StateV → StateV → Option Str),
      (setStateRun b part runL).1.state = jsMerge b.state part ∧
      (∀ c ∈ (setStateRun b part runL).2.1, c.2.1 = b.state ∧ c.2.2 = jsMerge b.state part) ∧
      ((∃ id ∈ b.listeners, runL id b.state (jsMerge b.state part) ≠ none) →
        ((setStateRun b part runL).2.2).isSome = true ∧
        (setStateRun b part runL).1.state = jsMerge b.state part) := by
  intro b part runL
  refine ⟨rfl, ?_, fun hex => ⟨?_, rfl⟩⟩
  · intro c hc
    have : ∀ (l : List Nat) (p n : StateV) c, c ∈ (dispatchCalls runL l p n).1 →
        c.2.1 = p ∧ c.2.2 = n := by
      intro l
      induction l with
      | nil => intro p n c hc; simp [dispatchCalls] at hc
      | cons id rest ih =>
        intro p n c hc
        cases h0 : runL id p n with
        | some e =>
          simp only [dispatchCalls, h0] at hc
          rcases List.mem_singleton.mp hc with rfl
          exact ⟨rfl, rfl⟩
        | none =>
          simp only [dispatchCalls, h0] at hc
          rcases List.mem_cons.mp hc with rfl | hc'
          · exact ⟨rfl, rfl⟩
          · exact ih p n c hc'
    exact this b.listeners b.state (jsMerge b.state part) c hc
  · exact dispatchCalls_err_of_exists runL b.state (jsMerge b.state part) b.listeners hex

/-- Witness for C10 at a concrete throwing listener. -/
theorem c10_setState_no_rollback_witness :
    ((setStateRun ⟨[], [4]⟩ [("k".toList, 9)]
        (fun _ _ _ => some "boom".toList)).2.2).isSome = true ∧
    (setStateRun ⟨[], [4]⟩ [("k".toList, 9)]
        (fun _ _ _ => some "boom".toList)).1.state =
      jsMerge ([] : StateV) [("k".toList, 9)] :=
  (c10_setState_no_rollback ⟨[], [4]⟩ [("k".toList, 9)]
      (fun _ _ _ => some "boom".toList)).2.2
    ⟨4, by decide, by simp⟩

/-! ## `rest` computation lemmas -/

theorem dropWhile_good_append {t : Str} (r : Str) (hne : t ≠ []) (hw : wsFree t = true) :
    (t ++ r).dropWhile isWs = t ++ r := by
  cases t with
  | nil => exact absurd rfl hne
  | cons c cs =>
    rw [List.cons_append, List.dropWhile_cons]
    simp [wsFree_mem hw (List.mem_cons_self c cs)]

theorem jsTrim_joinTok (comps : List Str) (h : goodToks comps) :
    jsTrim (joinTok comps) = joinTok comps := by
  cases comps with
  | nil => rfl
  | cons t ts =>
    have hl : ltrim (joinTok (t :: ts)) = joinTok (t :: ts) := by
      rw [joinTok_cons]
      rcases ht : t with _ | ⟨c, cs⟩
      · exact absurd ht (goodToks_head h).1
      · rw [List.cons_append]
        exact ltrim_cons_nonWs _ (wsFree_mem (ht ▸ (goodToks_head h).2)
          (List.mem_cons_self c cs))
    rw [jsTrim, hl]
    exact rtrim_eq_self fun c hc => joinTok_getLast_nonWs (t :: ts) h c hc

theorem matchWsSegs_take : ∀ (rest : List Str) (k : Nat), goodToks rest →
    matchWsSegs (rest.take k) (sjoin rest) = some (joinTok (rest.drop k))
  | [], k, _ => by simp [sjoin, matchWsSegs, joinTok]
  | t :: rest', k, h => by
    have htne : t ≠ [] := (goodToks_head h).1
    have htw : wsFree t = true := (goodToks_head h).2
    have hdrop : (t ++ sjoin rest').dropWhile isWs = t ++ sjoin rest' :=
      dropWhile_good_append _ htne htw
    cases k with
    | zero =>
      rw [List.take_zero, List.drop_zero, matchWsSegs, sjoin]
      rw [List.dropWhile_cons]
      simp only [show isWs ' ' = true from rfl, if_true]
      rw [hdrop, ← joinTok_cons]
    | succ k' =>
      rw [List.take_succ_cons, sjoin]
      rw [matchWsSegs]
      simp only [List.dropWhile_cons, show isWs ' ' = true from rfl, if_true, hdrop]
      have hcl : (t ++ sjoin rest').length < (' ' :: (t ++ sjoin rest')).length := by
        simp
      have hpre : t.isPrefixOf (t ++ sjoin rest') = true :=
        List.isPrefixOf_iff_prefix.mpr (List.prefix_append _ _)
      rw [if_pos ⟨hcl, hpre⟩, List.drop_left]
      rw [List.drop_succ_cons]
      exact matchWsSegs_take rest' k' (goodToks_tail h)

theorem matchSegsFrom_take (comps : List Str) (k : Nat) (h : goodToks comps) :
    matchSegsFrom (comps.take k) (joinTok comps) = some (joinTok (comps.drop k)) := by
  cases comps with
  | nil => simp [joinTok, matchSegsFrom]
  | cons t rest =>
    cases k with
    | zero =>
      rw [List.take_zero, List.drop_zero, matchSegsFrom, joinTok_cons]
      rw [dropWhile_good_append _ (goodToks_head h).1 (goodToks_head h).2, ← joinTok_cons]
    | succ k' =>
      rw [List.take_succ_cons, List.drop_succ_cons, matchSegsFrom, joinTok_cons]
      have hpre : t.isPrefixOf (t ++ sjoin rest) = true :=
        List.isPrefixOf_iff_prefix.mpr (List.prefix_append _ _)
      rw [hpre]
      simp only [if_true]
      rw [List.drop_left]
      exact matchWsSegs_take rest k' (goodToks_tail h)

theorem restOf_canonical (pfx : Str) (comps : List Str) (k : Nat)
    (h : goodToks comps) :
    restOf pfx (comps.take k) (pfx ++ joinTok comps) = joinTok (comps.drop k) := by
  have hpre : pfx.isPrefixOf (pfx ++ joinTok comps) = true :=
    List.isPrefixOf_iff_prefix.mpr (List.prefix_append _ _)
  have hd : goodToks (comps.drop k) := fun t ht => h t (List.drop_subset k comps ht)
  simp only [restOf, hpre, if_true, List.drop_left, matchSegsFrom_take comps k h]
  exact jsTrim_joinTok _ hd

/-! ## Dispatch-reduction helpers -/

theorem receive_parsed (b : BotM) (runAct : Nat → Request → Option Str)
    (runHelp : Nat → Except Str Str) {content : Str} {comps : List Str}
    (hparse : parse b.pfx content = comps) (hne : comps ≠ [])
    (hsafe : (regexLit b.pfx && ((weakDive b.commands comps).1).all regexLit) = true) :
    receive b runAct runHelp ⟨false, content⟩ =
      .completed (dispatch b runAct runHelp ⟨false, content⟩ comps) := by
  have h0 : (⟨false, content⟩ : MessageIn).authorBot = false := rfl
  simp only [receive, h0, Bool.false_eq_true, if_false, hparse]
  rw [if_neg (by simpa using hne), if_pos hsafe]

theorem dispatch_command_some {b : BotM} {runAct : Nat → Request → Option Str}
    {runHelp : Nat → Except Str Str} {m : MessageIn} {comps thr : List Str} {c : Command}
    (hwd : weakDive b.commands comps = (thr, some c))
    (hcond : ((comps.drop thr.length).length == 1 &&
      ((comps.drop thr.length).headD [] == strDashHelp && c.help.isSome)) = false) :
    dispatch b runAct runHelp m comps =
      Effect.invoke c.action (mkRequest b m comps) ::
        (match runAct c.action (mkRequest b m comps) with
         | none => []
         | some e => onErrorEffects b e) := by
  simp only [dispatch, hwd, hcond, Bool.false_eq_true, if_false]

theorem dispatch_help_some {b : BotM} {runAct : Nat → Request → Option Str}
    {runHelp : Nat → Except Str Str} {m : MessageIn} {comps thr : List Str} {c : Command}
    (hwd : weakDive b.commands comps = (thr, some c))
    (hcond : ((comps.drop thr.length).length == 1 &&
      ((comps.drop thr.length).headD [] == strDashHelp && c.help.isSome)) = true) :
    dispatch b runAct runHelp m comps = onHelpEffects b runHelp (mkRequest b m comps) := by
  simp only [dispatch, hwd, hcond, if_true]

theorem dispatch_help_none {b : BotM} {runAct : Nat → Request → Option Str}
    {runHelp : Nat → Except Str Str} {m : MessageIn} {comps thr : List Str}
    (hwd : weakDive b.commands comps = (thr, none))
    (hcond : ((comps.drop thr.length).length == 1 &&
      ((comps.drop thr.length).headD [] == strHelp)) = true) :
    dispatch b runAct runHelp m comps = onHelpEffects b runHelp (mkRequest b m comps) := by
  simp only [dispatch, hwd, hcond, if_true]

theorem mkRequest_eq {b : BotM} {m : MessageIn} {comps thr : List Str} {cmdO : Option Command}
    (hwd : weakDive b.commands comps = (thr, cmdO)) :
    mkRequest b m comps =
      { message := m.content
        components := comps
        commands := thr
        command := cmdO
        rest := restOf b.pfx thr m.content
        args := comps.drop thr.length } := by
  simp only [mkRequest, hwd]

/-- C6 counterexample: in a registered command tree containing a top-level
command literally named `help`, receiving `;;help` from a non-automated
sender completes the dispatch without producing any reply at all (the
registered command's handler is invoked instead of the global help). -/
theorem c6_counterexample :
    ((receive ⟨";;".toList, [("help".toList, Command.mk 0 none [])],
        defaultInvalidCommandError, defaultErrorMessage⟩
      (fun _ _ => none) (fun _ => .ok []) ⟨false, ";;help".toList⟩).effects).map
        (List.filter isReply) = some [] ∧
    ((receive ⟨";;".toList, [("help".toList, Command.mk 0 none [])],
        defaultInvalidCommandError, defaultErrorMessage⟩
      (fun _ _ => none) (fun _ => .ok [])
      ⟨false, ";;help".toList⟩).effects).isSome = true :=
  ⟨rfl, rfl⟩

/-- C6 (amended): for every registered command tree with no top-level command
named `help`, receiving `<prefix>help` (whitespace-free, nonempty,
regex-metacharacter-free prefix; no further tokens; non-automated sender)
produces exactly the global help reply, whose `Commands` field lists every
top-level registered command name plus the literal `help`, sorted.  (For a
prefix containing regex metacharacters, the unescaped `RegExp` built at the
`rest` computation may throw before the help branch; such prefixes are
outside this statement.) -/
theorem c6_global_help (pfx : Str) (root : List (Str × Command)) (iErr eMsg : Str)
    (runAct : Nat → Request → Option Str) (runHelp : Nat → Except Str Str)
    (hp : wsFree pfx = true) (hpne : pfx ≠ []) (hrl : regexLit pfx = true)
    (hlook : alGet strHelp root = none) :
    receive ⟨pfx, root, iErr, eMsg⟩ runAct runHelp ⟨false, pfx ++ strHelp⟩ =
      .completed [Effect.reply (.embedHelp (globalHelpValue root) (helpWithValue pfx))] := by
  have hgood : goodToks [strHelp] := by
    intro t htm
    rcases List.mem_singleton.mp htm with rfl
    exact ⟨by decide, by decide⟩
  have hparse : parse pfx (pfx ++ strHelp) = [strHelp] := by
    have := parse_canonical pfx [strHelp] hp hpne (by simp) hgood
    simpa [joinTok] using this
  have hwd : weakDive root [strHelp] = ([], none) := by
    simp [weakDive, weakDiveGo, step, hlook]
  have hsafe : (regexLit pfx && ((weakDive root [strHelp]).1).all regexLit) = true := by
    rw [hwd]
    show (regexLit pfx && true) = true
    rw [hrl]
    rfl
  have hrec := receive_parsed ⟨pfx, root, iErr, eMsg⟩ runAct runHelp hparse (by simp) hsafe
  rw [hrec, dispatch_help_none hwd (by rfl), mkRequest_eq hwd]
  simp only [onHelpEffects]

/-- Witness for C6's amended statement at a concrete tree and prefix. -/
theorem c6_global_help_witness :
    receive ⟨";;".toList, [("ping".toList, Command.mk 7 none [])],
        defaultInvalidCommandError, defaultErrorMessage⟩
      (fun _ _ => none) (fun _ => .ok []) ⟨false, ";;".toList ++ strHelp⟩ =
      .completed [Effect.reply (.embedHelp
        (globalHelpValue [("ping".toList, Command.mk 7 none [])])
        (helpWithValue ";;".toList))] :=
  c6_global_help ";;".toList [("ping".toList, Command.mk 7 none [])]
    defaultInvalidCommandError defaultErrorMessage (fun _ _ => none) (fun _ => .ok [])
    (by decide) (by decide) (by decide) rfl

/-- C7: for every configured whitespace-free, nonempty,
regex-metacharacter-free prefix and every non-automated message of the
canonical shape `prefix ++ tok₀ ␣ tok₁ ␣ … ␣ tokₙ` whose (metacharacter-free)
token list is nonempty, resolves to a command, and takes no help branch, the
dispatcher invokes exactly that command's handler exactly once, with a
`Request` whose command-path field (`commands`) equals the consumed segments,
whose `args` equals the unconsumed token suffix, and whose `rest` equals the
original message text with the prefix and the consumed command path removed
(the space-joined unconsumed suffix).  (Prefixes or command names containing
regex metacharacters make the unescaped `rest` pattern invalid or
non-literal and are outside this statement.) -/
theorem c7_dispatch_invokes_once (pfx : Str) (comps : List Str)
    (root : List (Str × Command)) (iErr eMsg : Str)
    (runAct : Nat → Request → Option Str) (runHelp : Nat → Except Str Str)
    (thr : List Str) (c : Command)
    (hp : wsFree pfx = true) (hpne : pfx ≠ []) (hcne : comps ≠ []) (ht : goodToks comps)
    (hrp : regexLit pfx = true) (hcl : comps.all regexLit = true)
    (hwd : weakDive root comps = (thr, some c))
    (hnh : ¬(comps.drop thr.length = [strDashHelp] ∧ c.help.isSome = true)) :
    ((receive ⟨pfx, root, iErr, eMsg⟩ runAct runHelp
        ⟨false, pfx ++ joinTok comps⟩).effects).map (List.filter isInvoke) =
      some [Effect.invoke c.action
        { message := pfx ++ joinTok comps
          components := comps
          commands := thr
          command := some c
          rest := joinTok (comps.drop thr.length)
          args := comps.drop thr.length }] := by
  have hparse : parse pfx (pfx ++ joinTok comps) = comps :=
    parse_canonical pfx comps hp hpne hcne ht
  have hthr_all : thr.all regexLit = true := by
    rw [List.all_eq_true] at hcl ⊢
    intro x hx
    have h0 : (weakDive root comps).1 <+: comps := weakDiveGo_fst_prefix root comps none
    rw [hwd] at h0
    exact hcl x (h0.subset hx)
  have hsafe : (regexLit pfx && ((weakDive root comps).1).all regexLit) = true := by
    rw [hwd]
    show (regexLit pfx && thr.all regexLit) = true
    rw [hrp, hthr_all]
    rfl
  have hcond : ((comps.drop thr.length).length == 1 &&
      ((comps.drop thr.length).headD [] == strDashHelp && c.help.isSome)) = false := by
    cases hb2 : ((comps.drop thr.length).length == 1 &&
        ((comps.drop thr.length).headD [] == strDashHelp && c.help.isSome)) with
    | false => rfl
    | true =>
      exfalso
      simp only [Bool.and_eq_true, beq_iff_eq] at hb2
      obtain ⟨h1, h2, h3⟩ := hb2
      obtain ⟨a, ha⟩ := List.length_eq_one.mp h1
      have ha2 : a = strDashHelp := by rw [ha] at h2; simpa using h2
      exact hnh ⟨by rw [ha, ha2], h3⟩
  have hthr : thr = comps.take thr.length := by
    have h0 : (weakDive root comps).1 <+: comps := weakDiveGo_fst_prefix root comps none
    rw [hwd] at h0
    exact List.prefix_iff_eq_take.mp h0
  have hrest : restOf pfx thr (pfx ++ joinTok comps) = joinTok (comps.drop thr.length) := by
    have h0 := restOf_canonical pfx comps thr.length ht
    rw [← hthr] at h0
    exact h0
  have hrec := receive_parsed ⟨pfx, root, iErr, eMsg⟩ runAct runHelp hparse hcne hsafe
  have hreq : mkRequest (⟨pfx, root, iErr, eMsg⟩ : BotM)
      (⟨false, pfx ++ joinTok comps⟩ : MessageIn) comps =
      { message := pfx ++ joinTok comps
        components := comps
        commands := thr
        command := some c
        rest := joinTok (comps.drop thr.length)
        args := comps.drop thr.length } := by
    rw [mkRequest_eq hwd]
    show ({ message := pfx ++ joinTok comps, components := comps, commands := thr,
            command := some c, rest := restOf pfx thr (pfx ++ joinTok comps),
            args := comps.drop thr.length } : Request) = _
    rw [hrest]
  rw [hrec, dispatch_command_some hwd hcond, hreq]
  set req : Request := { message := pfx ++ joinTok comps, components := comps,
                         commands := thr, command := some c,
                         rest := joinTok (comps.drop thr.length),
                         args := comps.drop thr.length } with hreqdef
  cases hact : runAct c.action req with
  | none => rfl
  | some e => rfl

/-- Witness for C7 at a concrete tree and message. -/
theorem c7_dispatch_invokes_once_witness :
    ((receive ⟨";;".toList, [("echo".toList, Command.mk 5 none [])],
        defaultInvalidCommandError, defaultErrorMessage⟩
      (fun _ _ => none) (fun _ => .ok [])
      ⟨false, ";;".toList ++ joinTok ["echo".toList, "hi".toList]⟩).effects).map
        (List.filter isInvoke) =
      some [Effect.invoke 5
        { message := ";;".toList ++ joinTok ["echo".toList, "hi".toList]
          components := ["echo".toList, "hi".toList]
          commands := ["echo".toList]
          command := some (Command.mk 5 none [])
          rest := joinTok (["echo".toList, "hi".toList].drop ["echo".toList].length)
          args := ["echo".toList, "hi".toList].drop ["echo".toList].length }] :=
  c7_dispatch_invokes_once ";;".toList ["echo".toList, "hi".toList]
    [("echo".toList, Command.mk 5 none [])] defaultInvalidCommandError defaultErrorMessage
    (fun _ _ => none) (fun _ => .ok []) ["echo".toList] (Command.mk 5 none [])
    (by decide) (by decide) (by decide)
    (by intro t htm; exact ⟨by rintro rfl; simp at htm, by
      rcases List.mem_cons.mp htm with rfl | htm2
      · decide
      · rcases List.mem_singleton.mp htm2 with rfl; decide⟩)
    (by decide) (by decide)
    rfl (by decide)

/-- C9: an error thrown (or a promise rejected) by a resolved command's
handler, and an error thrown by a dynamic help callable, are both caught at
the dispatch boundary: the dispatch completes normally (`receive` returns
`.completed`, so nothing propagates to its caller), the error is printed to
the operator console, and exactly one reply is sent, carrying the configured
`errorMessage`; the default `errorMessage` is distinct from the default
invalid-command message.  (Both scenarios are stated for
regex-metacharacter-free prefixes and command names: outside that domain the
unescaped `rest` pattern built before the `try` can itself throw, a failure
mode the containment claim does not survive.) -/
theorem c9_error_containment :
    (∀ (pfx : Str) (comps : List Str) (root : List (Str × Command)) (iErr eMsg : Str)
      (runAct : Nat → Request → Option Str) (runHelp : Nat → Except Str Str)
      (thr : List Str) (c : Command) (e : Str),
      wsFree pfx = true → pfx ≠ [] → comps ≠ [] → goodToks comps →
      regexLit pfx = true → comps.all regexLit = true →
      weakDive root comps = (thr, some c) →
      ¬(comps.drop thr.length = [strDashHelp] ∧ c.help.isSome = true) →
      runAct c.action (mkRequest ⟨pfx, root, iErr, eMsg⟩
        ⟨false, pfx ++ joinTok comps⟩ comps) = some e →
      receive ⟨pfx, root, iErr, eMsg⟩ runAct runHelp ⟨false, pfx ++ joinTok comps⟩ =
        .completed [Effect.invoke c.action (mkRequest ⟨pfx, root, iErr, eMsg⟩
            ⟨false, pfx ++ joinTok comps⟩ comps),
          Effect.consoleError e, Effect.reply (.text eMsg)]) ∧
    (∀ (pfx : Str) (comps : List Str) (root : List (Str × Command)) (iErr eMsg : Str)
      (runAct : Nat → Request → Option Str) (runHelp : Nat → Except Str Str)
      (thr : List Str) (c : Command) (hid : Nat) (e : Str),
      wsFree pfx = true → pfx ≠ [] → comps ≠ [] → goodToks comps →
      regexLit pfx = true → comps.all regexLit = true →
      weakDive root comps = (thr, some c) →
      comps.drop thr.length = [strDashHelp] →
      c.help = some (.dyn hid) →
      runHelp hid = .error e →
      receive ⟨pfx, root, iErr, eMsg⟩ runAct runHelp ⟨false, pfx ++ joinTok comps⟩ =
        .completed [Effect.consoleError e, Effect.reply (.text eMsg)]) ∧
    defaultErrorMessage ≠ defaultInvalidCommandError := by
  refine ⟨?_, ?_, by decide⟩
  · intro pfx comps root iErr eMsg runAct runHelp thr c e hp hpne hcne ht hrp hcl hwd
      hnh hact
    have hparse : parse pfx (pfx ++ joinTok comps) = comps :=
      parse_canonical pfx comps hp hpne hcne ht
    have hcond : ((comps.drop thr.length).length == 1 &&
        ((comps.drop thr.length).headD [] == strDashHelp && c.help.isSome)) = false := by
      cases hb2 : ((comps.drop thr.length).length == 1 &&
          ((comps.drop thr.length).headD [] == strDashHelp && c.help.isSome)) with
      | false => rfl
      | true =>
        exfalso
        simp only [Bool.and_eq_true, beq_iff_eq] at hb2
        obtain ⟨h1, h2, h3⟩ := hb2
        obtain ⟨a, ha⟩ := List.length_eq_one.mp h1
        have ha2 : a = strDashHelp := by rw [ha] at h2; simpa using h2
        exact hnh ⟨by rw [ha, ha2], h3⟩
    have hthr_all : thr.all regexLit = true := by
      rw [List.all_eq_true] at hcl ⊢
      intro x hx
      have h0 : (weakDive root comps).1 <+: comps := weakDiveGo_fst_prefix root comps none
      rw [hwd] at h0
      exact hcl x (h0.subset hx)
    have hsafe : (regexLit pfx && ((weakDive root comps).1).all regexLit) = true := by
      rw [hwd]
      show (regexLit pfx && thr.all regexLit) = true
      rw [hrp, hthr_all]
      rfl
    have hrec := receive_parsed ⟨pfx, root, iErr, eMsg⟩ runAct runHelp hparse hcne hsafe
    rw [hrec, dispatch_command_some hwd hcond, hact]
    rfl
  · intro pfx comps root iErr eMsg runAct runHelp thr c hid e hp hpne hcne ht hrp hcl
      hwd hdrop hhelp hrun
    have hparse : parse pfx (pfx ++ joinTok comps) = comps :=
      parse_canonical pfx comps hp hpne hcne ht
    have hcond : ((comps.drop thr.length).length == 1 &&
        ((comps.drop thr.length).headD [] == strDashHelp && c.help.isSome)) = true := by
      rw [hdrop, hhelp]
      rfl
    have hthr_all : thr.all regexLit = true := by
      rw [List.all_eq_true] at hcl ⊢
      intro x hx
      have h0 : (weakDive root comps).1 <+: comps := weakDiveGo_fst_prefix root comps none
      rw [hwd] at h0
      exact hcl x (h0.subset hx)
    have hsafe : (regexLit pfx && ((weakDive root comps).1).all regexLit) = true := by
      rw [hwd]
      show (regexLit pfx && thr.all regexLit) = true
      rw [hrp, hthr_all]
      rfl
    have hrec := receive_parsed ⟨pfx, root, iErr, eMsg⟩ runAct runHelp hparse hcne hsafe
    rw [hrec, dispatch_help_some hwd hcond, mkRequest_eq hwd]
    simp only [onHelpEffects, hhelp, hrun, onErrorEffects]

/-- Witness for C9: a handler that throws, and a dynamic help callable that
throws, each at a concrete bot. -/
theorem c9_error_containment_witness :
    receive ⟨";;".toList, [("boom".toList, Command.mk 9 none [])],
        defaultInvalidCommandError, defaultErrorMessage⟩
      (fun _ _ => some "E".toList) (fun _ => .ok [])
      ⟨false, ";;".toList ++ joinTok ["boom".toList]⟩ =
      .completed [Effect.invoke 9 (mkRequest
          ⟨";;".toList, [("boom".toList, Command.mk 9 none [])],
            defaultInvalidCommandError, defaultErrorMessage⟩
          ⟨false, ";;".toList ++ joinTok ["boom".toList]⟩ ["boom".toList]),
        Effect.consoleError "E".toList, Effect.reply (.text defaultErrorMessage)] ∧
    receive ⟨";;".toList, [("doc".toList, Command.mk 1 (some (.dyn 3)) [])],
        defaultInvalidCommandError, defaultErrorMessage⟩
      (fun _ _ => none) (fun _ => .error "bad".toList)
      ⟨false, ";;".toList ++ joinTok ["doc".toList, "--help".toList]⟩ =
      .completed [Effect.consoleError "bad".toList,
        Effect.reply (.text defaultErrorMessage)] :=
  ⟨c9_error_containment.1 ";;".toList ["boom".toList]
      [("boom".toList, Command.mk 9 none [])] defaultInvalidCommandError
      defaultErrorMessage (fun _ _ => some "E".toList) (fun _ => .ok [])
      ["boom".toList] (Command.mk 9 none []) "E".toList
      (by decide) (by decide) (by decide)
      (by intro t htm; rcases List.mem_singleton.mp htm with rfl; exact ⟨by decide, by decide⟩)
      (by decide) (by decide)
      rfl (by decide) rfl,
   c9_error_containment.2.1 ";;".toList ["doc".toList, "--help".toList]
      [("doc".toList, Command.mk 1 (some (.dyn 3)) [])] defaultInvalidCommandError
      defaultErrorMessage (fun _ _ => none) (fun _ => .error "bad".toList)
      ["doc".toList] (Command.mk 1 (some (.dyn 3)) []) 3 "bad".toList
      (by decide) (by decide) (by decide)
      (by intro t htm; rcases List.mem_cons.mp htm with rfl | htm2
          · exact ⟨by decide, by decide⟩
          · rcases List.mem_singleton.mp htm2 with rfl; exact ⟨by decide, by decide⟩)
      (by decide) (by decide)
      rfl rfl rfl rfl⟩

end Discorb
